import Mathlib

/-!
Verification of the Connect Four bitboard engine
(`internal/position/position_parsing_error.go`).

The Go code is shallowly embedded over `Nat`: `uint64` values are natural
numbers, and every operation whose Go result can wrap (left shifts and
additions on `uint64`) takes an explicit `% 2 ^ 64`.  Right shifts, `&`,
`|` and `^` of values below `2 ^ 64` cannot wrap and are embedded as the
corresponding `Nat` operations.  Go's `x << s` with `s ≥ 64` yields `0`,
which agrees with `(x <<< s) % 2 ^ 64`.
-/

namespace C4S

/-- Board width, from the source constant `W`. -/
def W : Nat := 7

/-- Board height, from the source constant `H`. -/
def H : Nat := 6

/-- `BoardSize = W * H`, from the source. -/
def BoardSize : Nat := W * H

/-- `Centre = W / 2`, from the source. -/
def Centre : Nat := W / 2

/-- The modulus of Go's `uint64` arithmetic. -/
def U64 : Nat := 2 ^ 64

/-- `top_mask_col` from the source: `uint64(1) << (H - 1 + col*(H+1))`. -/
def top_mask_col (col : Nat) : Nat :=
  (1 <<< (H - 1 + col * (H + 1))) % U64

/-- `bottom_mask_col` from the source: `uint64(1) << (col * (H + 1))`. -/
def bottom_mask_col (col : Nat) : Nat :=
  (1 <<< (col * (H + 1))) % U64

/-- `column_mask` from the source: `((1 << H) - 1) << (col * (H + 1))`. -/
def column_mask (col : Nat) : Nat :=
  (((1 <<< H) - 1) <<< (col * (H + 1))) % U64

/-- `bottom_mask` from the source: the OR of `bottom_mask_col i` for `i < W`. -/
def bottom_mask : Nat :=
  (List.range W).foldl (fun mask i => mask ||| bottom_mask_col i) 0

/-- `board_mask` from the source: `bottom_mask() * ((1 << H) - 1)`. -/
def board_mask : Nat :=
  (bottom_mask * ((1 <<< H) - 1)) % U64

/-- The `Position` struct from the source: two `uint64` bitboards and a
move counter. -/
structure Position where
  Board : Nat
  Mask : Nat
  moves : Nat
deriving DecidableEq

/-- `NewPosition` from the source: the empty starting position. -/
def NewPosition : Position := ⟨0, 0, 0⟩

/-- The error values from the source file, one constructor per Go error
struct.  A field left out at a Go construction site takes the zero value,
which the embedding writes explicitly at each use site. -/
inductive ParseError where
  | invalidBoardStringLength (actual expected : Int)
  | invalidCharacter (character : Char) (index : Int)
  | invalidColumn (column index : Int)
  | invalidFullColumnMove (column index : Int)
  | invalidWinningMove (column index : Int)
deriving DecidableEq

/-- `Position.IsPlayable` from the source, verbatim:
`self.Mask & top_mask_col(col) != 0`. -/
def IsPlayable (p : Position) (col : Nat) : Bool :=
  p.Mask &&& top_mask_col col != 0

/-- `Position.Possible` from the source.  Go parses
`self.Mask + bottom_mask()&board_mask()` as
`self.Mask + (bottom_mask() & board_mask())` because `&` binds tighter
than `+`; the embedding keeps that grouping. -/
def Possible (p : Position) : Nat :=
  (p.Mask + (bottom_mask &&& board_mask)) % U64

/-- `compute_winning_position` from the source: open-ended 3-alignment
detection by shift-and-mask, finally restricted to empty cells. -/
def compute_winning_position (position mask : Nat) : Nat :=
  let shl : Nat → Nat → Nat := fun x s => (x <<< s) % U64
  let r := shl position 1 &&& shl position 2 &&& shl position 3
  let p := shl position (H + 1) &&& shl position (2 * (H + 1))
  let r := r ||| (p &&& shl position (3 * (H + 1)))
  let r := r ||| (p &&& (position >>> (H + 1)))
  let p := p >>> (3 * (H + 1))
  let r := r ||| (p &&& shl position (H + 1))
  let r := r ||| (p &&& (position >>> (3 * (H + 1))))
  let p2 := shl position H &&& shl position (2 * H)
  let r := r ||| (p2 &&& shl position (3 * H))
  let r := r ||| (p2 &&& (position >>> H))
  let p2 := p2 >>> (3 * H)
  let r := r ||| (p2 &&& shl position H)
  let r := r ||| (p2 &&& (position >>> (3 * H)))
  let p3 := shl position (H + 2) &&& shl position (2 * (H + 2))
  let r := r ||| (p3 &&& shl position (3 * (H + 2)))
  let r := r ||| (p3 &&& (position >>> (H + 2)))
  let p3 := p3 >>> (3 * (H + 2))
  let r := r ||| (p3 &&& shl position (H + 2))
  let r := r ||| (p3 &&& (position >>> (3 * (H + 2))))
  r &&& (board_mask ^^^ mask)

/-- `Position.winning_positions` from the source. -/
def winning_positions (p : Position) : Nat :=
  compute_winning_position p.Board p.Mask

/-- `Position.opponent_winning_position` from the source. -/
def opponent_winning_position (p : Position) : Nat :=
  compute_winning_position (p.Board ^^^ p.Mask) p.Mask

/-- `Position.IsWinningMove` from the source. -/
def IsWinningMove (p : Position) (col : Nat) : Bool :=
  0 < winning_positions p &&& Possible p &&& column_mask col

/-- `Position.CanWinNext` from the source. -/
def CanWinNext (p : Position) : Bool :=
  0 < winning_positions p &&& Possible p

/-- `Position.Play` from the source: the player swap `Board ^= Mask` uses
the old mask, then `Mask |= Mask + bottom_mask_col(col)` and the counter
is incremented. -/
def Play (p : Position) (col : Nat) : Position :=
  { Board := p.Board ^^^ p.Mask
    Mask := p.Mask ||| ((p.Mask + bottom_mask_col col) % U64)
    moves := p.moves + 1 }

/-- `Position.PossibleNonLosingMoves` from the source.  Go's unary `^x`
on `uint64` is embedded as `x ^^^ (U64 - 1)`.  Inside the guarded branch
`forced_moves ≥ 1`, Go's wrapping `forced_moves - 1` coincides with `Nat`
subtraction. -/
def PossibleNonLosingMoves (p : Position) : Nat :=
  let possible := Possible p
  let opponent_wins := opponent_winning_position p
  let forced_moves := possible &&& opponent_wins
  if 0 < forced_moves then
    if 0 < forced_moves &&& (forced_moves - 1) then
      0
    else
      forced_moves &&& ((opponent_wins >>> 1) ^^^ (U64 - 1))
  else
    possible &&& ((opponent_wins >>> 1) ^^^ (U64 - 1))

/-- The per-mask accumulation of the loop in
`Position.get_mirrored_bitmasks`.  The Go loop builds the mirrored board
and the mirrored mask by the same independent `|=` accumulations, so the
pair result is this function applied to each component. -/
def mirror_one (x : Nat) : Nat :=
  ((List.range Centre).foldl
    (fun acc col =>
      let mirrored_col := W - 1 - col
      let shift := (mirrored_col - col) * (H + 1)
      acc ||| (((x &&& column_mask col) <<< shift) % U64)
          ||| ((x &&& column_mask mirrored_col) >>> shift)) 0)
  ||| (if W &&& 1 = 1 then x &&& column_mask Centre else 0)

/-- `Position.get_mirrored_bitmasks` from the source. -/
def get_mirrored_bitmasks (p : Position) : Nat × Nat :=
  (mirror_one p.Board, mirror_one p.Mask)

/-- `Position.GetKey` from the source: the smaller of `Board + Mask` for
the stored and the mirrored bitmasks. -/
def GetKey (p : Position) : Nat :=
  let key := (p.Board + p.Mask) % U64
  let mirrored := get_mirrored_bitmasks p
  let mirrored_key := (mirrored.1 + mirrored.2) % U64
  if mirrored_key < key then mirrored_key else key

/-- The loop body of `PositionFromMoves`, with the running position, the
last parsed column (initially `-1`) and the character index as
accumulators.  Each iteration either aborts with the error the source
constructs at that point or plays the move and continues; after the loop
the source fails with `InvalidColumn{-1}` when no move was read. -/
def positionFromMovesAux (pos : Position) (col : Int) (i : Nat) :
    List Char → Except ParseError Position
  | [] =>
      if col = -1 then .error (.invalidColumn col 0) else .ok pos
  | c :: rest =>
      if '0' ≤ c ∧ c ≤ '9' then
        let coln : Nat := c.toNat - '0'.toNat
        if IsPlayable pos coln then
          if IsWinningMove pos coln then
            .error (.invalidWinningMove (coln : Int) 0)
          else
            positionFromMovesAux (Play pos coln) (coln : Int) (i + 1) rest
        else
          .error (.invalidFullColumnMove ((coln : Int) + 1) (i : Int))
      else
        .error (.invalidCharacter c (i : Int))

/-- `PositionFromMoves` from the source, over the sequence of characters
of the input. -/
def PositionFromMoves (moves : List Char) : Except ParseError Position :=
  positionFromMovesAux NewPosition (-1) 0 moves

/-- The loop body of `PositionFromBoardString`: state is
`(board, mask, moves)`, input is an indexed character. -/
def boardStringStep (acc : Nat × Nat × Nat) (ic : Nat × Char) : Nat × Nat × Nat :=
  if ic.2 = '.' then acc
  else
    let row := H - ic.1 / W - 1
    let col := ic.1 % W
    let bit_index := row + col * (H + 1)
    let board_bit : Nat := if ic.2 = 'x' then 1 else 0
    (acc.1 ||| ((board_bit <<< bit_index) % U64),
     acc.2.1 ||| ((1 <<< bit_index) % U64),
     acc.2.2 + 1)

/-- `PositionFromBoardString` from the source: lowercase, keep only
`.`/`o`/`x`, demand exactly `BoardSize` significant characters, then
fold the indexed characters into the two bitboards. -/
def PositionFromBoardString (board_string : List Char) : Except ParseError Position :=
  let chars := (board_string.map Char.toLower).filter
    (fun c => c = '.' || c = 'o' || c = 'x')
  if chars.length ≠ BoardSize then
    .error (.invalidBoardStringLength (chars.length : Int) (BoardSize : Int))
  else
    let s := chars.enum.foldl boardStringStep (0, 0, 0)
    .ok ⟨s.1, s.2.1, s.2.2⟩

/-! ### Population count and generic bit lemmas -/

/-- Number of set bits of a natural number (the spec's "population
count"). -/
def popCount (n : Nat) : Nat :=
  if h : n = 0 then 0 else n % 2 + popCount (n / 2)
decreasing_by exact Nat.div_lt_self (Nat.pos_of_ne_zero h) (by norm_num)

theorem popCount_zero : popCount 0 = 0 := by
  rw [popCount]; simp

theorem popCount_eq (n : Nat) : popCount n = n % 2 + popCount (n / 2) := by
  by_cases h : n = 0
  · subst h; rw [popCount]; simp [popCount_zero]
  · rw [popCount]; simp [h]

theorem popCount_one : popCount 1 = 1 := by
  rw [popCount_eq]; simp [popCount_zero]

/-- Splitting a number at bit `n` splits its population count. -/
theorem popCount_concat {n : Nat} (a x : Nat) (ha : a < 2 ^ n) :
    popCount (a + 2 ^ n * x) = popCount a + popCount x := by
  induction n generalizing a with
  | zero =>
      have : a = 0 := by omega
      subst this; simp [popCount_zero]
  | succ n ih =>
      have hmod : (a + 2 ^ (n + 1) * x) % 2 = a % 2 := by
        rw [pow_succ, Nat.mul_comm (2 ^ n) 2, Nat.mul_assoc]
        exact Nat.add_mul_mod_self_left a 2 (2 ^ n * x)
      have hdiv : (a + 2 ^ (n + 1) * x) / 2 = a / 2 + 2 ^ n * x := by
        rw [pow_succ, Nat.mul_comm (2 ^ n) 2, Nat.mul_assoc]
        exact Nat.add_mul_div_left a (2 ^ n * x) (by norm_num)
      have ha2 : a / 2 < 2 ^ n := by
        have : a < 2 ^ n * 2 := by rw [← pow_succ]; exact ha
        omega
      rw [popCount_eq (a + 2 ^ (n + 1) * x), hmod, hdiv, ih (a / 2) ha2,
        popCount_eq a]
      omega

theorem popCount_two_pow (k : Nat) : popCount (2 ^ k) = 1 := by
  have h := popCount_concat (n := k) 0 1 (Nat.two_pow_pos k)
  simpa [popCount_zero, popCount_one] using h

theorem popCount_two_pow_sub_one (h : Nat) : popCount (2 ^ h - 1) = h := by
  induction h with
  | zero => simp [popCount_zero]
  | succ h ih =>
      have hk : 1 ≤ 2 ^ h := Nat.one_le_two_pow
      have h1 : (2 ^ (h + 1) - 1) % 2 = 1 := by rw [pow_succ]; omega
      have h2 : (2 ^ (h + 1) - 1) / 2 = 2 ^ h - 1 := by rw [pow_succ]; omega
      rw [popCount_eq, h1, h2, ih]
      omega

theorem popCount_pos {n : Nat} (h : n ≠ 0) : 0 < popCount n := by
  induction n using Nat.strong_induction_on with
  | _ n ih =>
      rw [popCount_eq]
      rcases Nat.mod_two_eq_zero_or_one n with h2 | h2
      · have hn2 : n / 2 ≠ 0 := by omega
        have := ih (n / 2) (Nat.div_lt_self (Nat.pos_of_ne_zero h) (by norm_num)) hn2
        omega
      · omega

theorem popCount_eq_zero {n : Nat} (h : popCount n = 0) : n = 0 := by
  by_contra hn
  exact absurd h (Nat.ne_of_gt (popCount_pos hn))

/-- `testBit` of a number split at bit `n`. -/
theorem testBit_concat {n a : Nat} (x : Nat) (ha : a < 2 ^ n) (j : Nat) :
    Nat.testBit (a + 2 ^ n * x) j =
      if j < n then Nat.testBit a j else Nat.testBit x (j - n) := by
  rw [Nat.add_comm]
  exact Nat.testBit_mul_pow_two_add x ha j

/-- Bitwise AND distributes over splitting at bit `n`. -/
theorem land_concat {n a b : Nat} (x y : Nat) (ha : a < 2 ^ n) (hb : b < 2 ^ n) :
    (a + 2 ^ n * x) &&& (b + 2 ^ n * y) = (a &&& b) + 2 ^ n * (x &&& y) := by
  apply Nat.eq_of_testBit_eq
  intro j
  rw [Nat.testBit_and, testBit_concat x ha j, testBit_concat y hb j,
    testBit_concat (x &&& y) (Nat.and_lt_two_pow a hb) j]
  by_cases h : j < n <;> simp [h]

/-- Bitwise OR distributes over splitting at bit `n`. -/
theorem lor_concat {n a b : Nat} (x y : Nat) (ha : a < 2 ^ n) (hb : b < 2 ^ n) :
    (a + 2 ^ n * x) ||| (b + 2 ^ n * y) = (a ||| b) + 2 ^ n * (x ||| y) := by
  apply Nat.eq_of_testBit_eq
  intro j
  rw [Nat.testBit_or, testBit_concat x ha j, testBit_concat y hb j,
    testBit_concat (x ||| y) (Nat.or_lt_two_pow ha hb) j]
  by_cases h : j < n <;> simp [h]

theorem two_pow_or_sub_one (h : Nat) : (2 ^ h - 1) ||| 2 ^ h = 2 ^ (h + 1) - 1 := by
  have hlt : 2 ^ h - 1 < 2 ^ h := by
    have := Nat.two_pow_pos h; omega
  have e := Nat.mul_add_lt_is_or hlt 1
  have hs : 2 ^ h * 1 + (2 ^ h - 1) = 2 ^ (h + 1) - 1 := by
    have := Nat.two_pow_pos h; rw [pow_succ]; omega
  rw [Nat.mul_one] at e hs
  rw [Nat.or_comm, ← e]
  exact hs

theorem land_absorb_or (x y : Nat) : x &&& (x ||| y) = x := by
  apply Nat.eq_of_testBit_eq
  intro i
  rw [Nat.testBit_and, Nat.testBit_or]
  cases Nat.testBit x i <;> simp

theorem land_trans {x y z : Nat} (h1 : x &&& y = x) (h2 : y &&& z = y) :
    x &&& z = x := by
  apply Nat.eq_of_testBit_eq
  intro i
  have e1 := congrArg (fun t => Nat.testBit t i) h1
  have e2 := congrArg (fun t => Nat.testBit t i) h2
  simp only [Nat.testBit_and] at e1 e2 ⊢
  cases hx : Nat.testBit x i <;> cases hy : Nat.testBit y i <;>
    cases hz : Nat.testBit z i <;> simp_all

theorem lxor_subset {x y : Nat} (h : x &&& y = x) : (x ^^^ y) &&& y = x ^^^ y := by
  apply Nat.eq_of_testBit_eq
  intro i
  have e := congrArg (fun t => Nat.testBit t i) h
  simp only [Nat.testBit_and] at e
  rw [Nat.testBit_and, Nat.testBit_xor]
  cases hx : Nat.testBit x i <;> cases hy : Nat.testBit y i <;> simp_all

/-! ### Bitboards as base-`2^7` column digits -/

/-- A bitboard as a little-endian list of 7-bit column digits
(column `c` occupies bits `c*7 .. c*7+6`). -/
def ofDigits : List Nat → Nat
  | [] => 0
  | d :: ds => d + 2 ^ 7 * ofDigits ds

theorem ofDigits_nil : ofDigits [] = 0 := rfl

theorem ofDigits_cons (d : Nat) (ds : List Nat) :
    ofDigits (d :: ds) = d + 2 ^ 7 * ofDigits ds := rfl

theorem ofDigits_lt : ∀ {ds : List Nat}, (∀ d ∈ ds, d < 2 ^ 7) →
    ofDigits ds < 2 ^ (7 * ds.length)
  | [], _ => by simp [ofDigits]
  | d :: ds, h => by
      have hd : d < 2 ^ 7 := h d (List.mem_cons_self d ds)
      have ht := @ofDigits_lt ds (fun x hx => h x (List.mem_cons_of_mem d hx))
      rw [ofDigits_cons]
      have he : 2 ^ (7 * (d :: ds).length) = 2 ^ 7 * 2 ^ (7 * ds.length) := by
        rw [← pow_add, List.length_cons]; ring_nf
      rw [he]
      calc d + 2 ^ 7 * ofDigits ds < 2 ^ 7 * (ofDigits ds + 1) := by omega
        _ ≤ 2 ^ 7 * 2 ^ (7 * ds.length) :=
            Nat.mul_le_mul_left (2 ^ 7) (by omega)

/-- The occupancy mask whose column `c` holds `hs[c]` discs stacked from
the bottom. -/
def heights_mask (hs : List Nat) : Nat :=
  ofDigits (hs.map fun h => 2 ^ h - 1)

theorem heights_mask_nil : heights_mask [] = 0 := rfl

theorem heights_mask_cons (h : Nat) (t : List Nat) :
    heights_mask (h :: t) = (2 ^ h - 1) + 2 ^ 7 * heights_mask t := rfl

theorem height_digit_lt {h : Nat} (hh : h ≤ 6) : 2 ^ h - 1 < 2 ^ 7 := by
  have h1 : (2 : Nat) ^ h ≤ 2 ^ 6 := Nat.pow_le_pow_right (by norm_num) hh
  have h2 : (0 : Nat) < 2 ^ h := Nat.two_pow_pos h
  have h3 : (2 : Nat) ^ 6 < 2 ^ 7 := by norm_num
  omega

theorem heights_mask_lt {hs : List Nat} (hall : ∀ h ∈ hs, h ≤ 6) :
    heights_mask hs < 2 ^ (7 * hs.length) := by
  have := @ofDigits_lt (hs.map fun h => 2 ^ h - 1) (by
    intro d hd
    obtain ⟨h, hh, rfl⟩ := List.mem_map.mp hd
    exact height_digit_lt (hall h hh))
  simpa using this

/-- Playing in column `c`: the OR with the carried sum bumps exactly that
column's height. -/
theorem play_heights : ∀ (hs : List Nat) (c : Nat), c < hs.length →
    (∀ h ∈ hs, h ≤ 6) → hs.getD c 0 ≤ 5 →
    heights_mask hs ||| (heights_mask hs + 2 ^ (c * 7)) =
      heights_mask (hs.set c (hs.getD c 0 + 1))
  | [], c, hlen, _, _ => by simp at hlen
  | h :: t, 0, _, hall, hroom => by
      have hh : h ≤ 6 := hall h (List.mem_cons_self h t)
      have hd1 : 2 ^ h - 1 < 2 ^ 7 := height_digit_lt hh
      have hd2 : 2 ^ h < 2 ^ 7 := Nat.pow_lt_pow_right (by norm_num) (by omega)
      simp only [List.getD_cons_zero, List.set_cons_zero, heights_mask_cons,
        Nat.zero_mul, pow_zero]
      have hstep : (2 ^ h - 1) + 2 ^ 7 * heights_mask t + 1 =
          2 ^ h + 2 ^ 7 * heights_mask t := by
        have := Nat.two_pow_pos h; omega
      rw [hstep, lor_concat (heights_mask t) (heights_mask t) hd1 hd2,
        two_pow_or_sub_one, Nat.or_self]
  | h :: t, c + 1, hlen, hall, hroom => by
      have hh : h ≤ 6 := hall h (List.mem_cons_self h t)
      have hd : 2 ^ h - 1 < 2 ^ 7 := height_digit_lt hh
      have hlen' : c < t.length := by
        have := hlen; simp [List.length_cons] at this; omega
      have hall' : ∀ x ∈ t, x ≤ 6 := fun x hx => hall x (List.mem_cons_of_mem h hx)
      have hroom' : t.getD c 0 ≤ 5 := by simpa using hroom
      simp only [List.getD_cons_succ, List.set_cons_succ, heights_mask_cons]
      have he : (c + 1) * 7 = 7 + c * 7 := by ring
      rw [he, pow_add]
      have hre : (2 ^ h - 1) + 2 ^ 7 * heights_mask t + 2 ^ 7 * 2 ^ (c * 7) =
          (2 ^ h - 1) + 2 ^ 7 * (heights_mask t + 2 ^ (c * 7)) := by ring
      rw [hre, lor_concat (heights_mask t) (heights_mask t + 2 ^ (c * 7)) hd hd,
        Nat.or_self, play_heights t c hlen' hall' hroom']

/-- The top usable bit of column `c` is clear exactly when the column
holds at most five discs. -/
theorem heights_room : ∀ (hs : List Nat) (c : Nat), c < hs.length →
    (∀ h ∈ hs, h ≤ 6) →
    (heights_mask hs &&& 2 ^ (5 + c * 7) = 0 ↔ hs.getD c 0 ≤ 5)
  | [], c, hlen, _ => by simp at hlen
  | h :: t, 0, _, hall => by
      have hh : h ≤ 6 := hall h (List.mem_cons_self h t)
      have hd : 2 ^ h - 1 < 2 ^ 7 := height_digit_lt hh
      simp only [List.getD_cons_zero, heights_mask_cons]
      have h32 : (2 : Nat) ^ (5 + 0 * 7) = 32 + 2 ^ 7 * 0 := by norm_num
      rw [h32, land_concat (heights_mask t) 0 hd (by norm_num)]
      simp only [Nat.and_zero, Nat.mul_zero, Nat.add_zero]
      interval_cases h <;> decide
  | h :: t, c + 1, hlen, hall => by
      have hh : h ≤ 6 := hall h (List.mem_cons_self h t)
      have hd : 2 ^ h - 1 < 2 ^ 7 := height_digit_lt hh
      have hlen' : c < t.length := by
        have := hlen; simp [List.length_cons] at this; omega
      have hall' : ∀ x ∈ t, x ≤ 6 := fun x hx => hall x (List.mem_cons_of_mem h hx)
      simp only [List.getD_cons_succ, heights_mask_cons]
      have he : (5 + (c + 1) * 7) = 7 + (5 + c * 7) := by ring
      have h0 : (2 : Nat) ^ (5 + (c + 1) * 7) = 0 + 2 ^ 7 * 2 ^ (5 + c * 7) := by
        rw [he, pow_add]; ring
      rw [h0, land_concat (heights_mask t) (2 ^ (5 + c * 7)) hd (by norm_num)]
      simp only [Nat.and_zero, Nat.zero_add]
      rw [← heights_room t c hlen' hall']
      have h128 : (0 : Nat) < 2 ^ 7 := by norm_num
      constructor
      · intro hz
        rcases Nat.mul_eq_zero.mp hz with hz' | hz'
        · omega
        · exact hz'
      · intro hz; rw [hz, Nat.mul_zero]

/-- Sentinel bits stay clear on a stacked mask. -/
theorem heights_sentinel : ∀ (hs : List Nat) (c : Nat), c < hs.length →
    (∀ h ∈ hs, h ≤ 6) → Nat.testBit (heights_mask hs) (6 + c * 7) = false
  | [], c, hlen, _ => by simp at hlen
  | h :: t, 0, _, hall => by
      have hh : h ≤ 6 := hall h (List.mem_cons_self h t)
      have hd : 2 ^ h - 1 < 2 ^ 7 := height_digit_lt hh
      rw [heights_mask_cons, testBit_concat (heights_mask t) hd]
      simp only [Nat.zero_mul, Nat.add_zero]
      rw [if_pos (by norm_num)]
      simp only [Nat.testBit_two_pow_sub_one]
      simp; omega
  | h :: t, c + 1, hlen, hall => by
      have hh : h ≤ 6 := hall h (List.mem_cons_self h t)
      have hd : 2 ^ h - 1 < 2 ^ 7 := height_digit_lt hh
      have hlen' : c < t.length := by
        have := hlen; simp [List.length_cons] at this; omega
      have hall' : ∀ x ∈ t, x ≤ 6 := fun x hx => hall x (List.mem_cons_of_mem h hx)
      rw [heights_mask_cons, testBit_concat (heights_mask t) hd]
      rw [if_neg (by omega)]
      have he : 6 + (c + 1) * 7 - 7 = 6 + c * 7 := by omega
      rw [he]
      exact heights_sentinel t c hlen' hall'

theorem popCount_heights : ∀ (hs : List Nat), (∀ h ∈ hs, h ≤ 6) →
    popCount (heights_mask hs) = hs.sum
  | [], _ => by simp [heights_mask_nil, popCount_zero]
  | h :: t, hall => by
      have hh : h ≤ 6 := hall h (List.mem_cons_self h t)
      have hd : 2 ^ h - 1 < 2 ^ 7 := height_digit_lt hh
      have hall' : ∀ x ∈ t, x ≤ 6 := fun x hx => hall x (List.mem_cons_of_mem h hx)
      rw [heights_mask_cons, popCount_concat _ _ hd, popCount_two_pow_sub_one,
        popCount_heights t hall', List.sum_cons]

theorem sum_set_succ : ∀ (hs : List Nat) (c : Nat), c < hs.length →
    (hs.set c (hs.getD c 0 + 1)).sum = hs.sum + 1
  | [], c, hlen => by simp at hlen
  | h :: t, 0, _ => by simp [List.sum_cons]; omega
  | h :: t, c + 1, hlen => by
      have hlen' : c < t.length := by
        have := hlen; simp [List.length_cons] at this; omega
      simp only [List.getD_cons_succ, List.set_cons_succ, List.sum_cons,
        sum_set_succ t c hlen']
      omega

/-! ### Reachable positions and the Play invariants -/

/-- Positions reached from the empty position by `Play` calls into
playable columns.  Playable is the spec's condition — the column's top
usable bit is clear in the occupancy mask (the source's `IsPlayable`
performs the inverted test; that is settled separately under C1). -/
inductive Reachable : Position → Prop where
  | start : Reachable NewPosition
  | step (p : Position) (c : Nat) (hc : c < W)
      (hroom : p.Mask &&& top_mask_col c = 0) (hp : Reachable p) :
      Reachable (Play p c)

theorem top_mask_col_eq {c : Nat} (hc : c < 7) :
    top_mask_col c = 2 ^ (5 + c * 7) := by
  show (1 <<< (5 + c * 7)) % U64 = 2 ^ (5 + c * 7)
  rw [Nat.shiftLeft_eq, Nat.one_mul]
  exact Nat.mod_eq_of_lt (Nat.pow_lt_pow_right (by norm_num) (by omega))

theorem bottom_mask_col_eq {c : Nat} (hc : c < 7) :
    bottom_mask_col c = 2 ^ (c * 7) := by
  show (1 <<< (c * 7)) % U64 = 2 ^ (c * 7)
  rw [Nat.shiftLeft_eq, Nat.one_mul]
  exact Nat.mod_eq_of_lt (Nat.pow_lt_pow_right (by norm_num) (by omega))

/-- Every reachable position's occupancy mask is a stack of at most six
discs per column, with the board and counter invariants alongside. -/
theorem reachable_heights {p : Position} (hp : Reachable p) :
    ∃ hs : List Nat, hs.length = 7 ∧ (∀ x ∈ hs, x ≤ 6) ∧
      p.Mask = heights_mask hs ∧ p.moves = hs.sum ∧
      p.Board &&& p.Mask = p.Board := by
  induction hp with
  | start =>
      refine ⟨[0, 0, 0, 0, 0, 0, 0], rfl, ?_, by decide, rfl, rfl⟩
      intro x hx
      simp at hx
      omega
  | step p c hc hroom hp ih =>
      obtain ⟨hs, hlen, hall, hmask, hmoves, hsub⟩ := ih
      have hc7 : c < 7 := hc
      have hcl : c < hs.length := by omega
      have hroom5 : hs.getD c 0 ≤ 5 := by
        rw [hmask, top_mask_col_eq hc7] at hroom
        exact (heights_room hs c hcl hall).mp hroom
      have hmlt : heights_mask hs < 2 ^ 49 := by
        have h1 := heights_mask_lt hall
        rw [hlen] at h1
        norm_num at h1
        exact h1
      have hmod : (p.Mask + bottom_mask_col c) % U64 = p.Mask + 2 ^ (c * 7) := by
        rw [bottom_mask_col_eq hc7, hmask]
        apply Nat.mod_eq_of_lt
        have h1 : (2 : Nat) ^ (c * 7) ≤ 2 ^ 42 :=
          Nat.pow_le_pow_right (by norm_num) (by omega)
        have h2 : (2 : Nat) ^ 49 + 2 ^ 42 < 2 ^ 64 := by norm_num
        show heights_mask hs + 2 ^ (c * 7) < 2 ^ 64
        omega
      refine ⟨hs.set c (hs.getD c 0 + 1), by simp [hlen], ?_, ?_, ?_, ?_⟩
      · intro x hx
        rcases List.mem_or_eq_of_mem_set hx with hx' | hx'
        · exact hall x hx'
        · omega
      · show p.Mask ||| ((p.Mask + bottom_mask_col c) % U64) = _
        rw [hmod, hmask]
        exact play_heights hs c hcl hall hroom5
      · show p.moves + 1 = _
        rw [hmoves, sum_set_succ hs c hcl]
      · show (p.Board ^^^ p.Mask) &&&
          (p.Mask ||| ((p.Mask + bottom_mask_col c) % U64)) = p.Board ^^^ p.Mask
        exact land_trans (lxor_subset hsub) (land_absorb_or _ _)

/-- C4: for every position reached from the empty position by `Play`
calls on playable columns, the current-player mask is a bitwise subset
of the occupancy mask, the move count equals the population count of
the occupancy mask, and no column's sentinel bit (index `H + c*(H+1)`)
is set in the occupancy mask. -/
theorem c4_play_invariants (p : Position) (h : Reachable p) :
    p.Board &&& p.Mask = p.Board ∧
    p.moves = popCount p.Mask ∧
    ∀ c, c < W → Nat.testBit p.Mask (H + c * (H + 1)) = false := by
  obtain ⟨hs, hlen, hall, hmask, hmoves, hsub⟩ := reachable_heights h
  refine ⟨hsub, ?_, ?_⟩
  · rw [hmask, popCount_heights hs hall, hmoves]
  · intro c hc
    have hc7 : c < 7 := hc
    rw [hmask]
    exact heights_sentinel hs c (by omega) hall

/-- Witness for C4: the invariants at the concrete reachable position
after one play in column 3. -/
theorem c4_play_invariants_witness :
    Reachable (Play NewPosition 3) ∧
    ((Play NewPosition 3).Board &&& (Play NewPosition 3).Mask =
        (Play NewPosition 3).Board ∧
      (Play NewPosition 3).moves = popCount (Play NewPosition 3).Mask ∧
      ∀ c, c < W →
        Nat.testBit (Play NewPosition 3).Mask (H + c * (H + 1)) = false) := by
  have hr : Reachable (Play NewPosition 3) :=
    Reachable.step NewPosition 3 (by decide) (by decide) Reachable.start
  exact ⟨hr, c4_play_invariants _ hr⟩

/-! ### Clearing the lowest set bit (`x &&& (x - 1)`) -/

theorem U64_eq : U64 = 2 ^ 64 := rfl

theorem exists_odd_factor : ∀ (x : Nat), x ≠ 0 →
    ∃ k m, m % 2 = 1 ∧ x = 2 ^ k * m := by
  intro x
  induction x using Nat.strong_induction_on with
  | _ x ih =>
      intro hx
      rcases Nat.mod_two_eq_zero_or_one x with h2 | h2
      · have hx2 : x / 2 ≠ 0 := by omega
        obtain ⟨k, m, hm, he⟩ := ih (x / 2) (by omega) hx2
        refine ⟨k + 1, m, hm, ?_⟩
        have hx2e : x = 2 * (x / 2) := by omega
        rw [hx2e, he, pow_succ]; ring
      · exact ⟨0, x, h2, by simp⟩

theorem odd_land_pred {m : Nat} (hm : m % 2 = 1) : m &&& (m - 1) = m - 1 := by
  apply Nat.eq_of_testBit_eq
  intro i
  rw [Nat.testBit_and]
  cases i with
  | zero =>
      rw [Nat.testBit_zero, Nat.testBit_zero]
      have h1 : (m - 1) % 2 = 0 := by omega
      simp [hm, h1]
  | succ i =>
      rw [Nat.testBit_add_one, Nat.testBit_add_one]
      have h2 : (m - 1) / 2 = m / 2 := by omega
      rw [h2]
      cases Nat.testBit (m / 2) i <;> simp

/-- Decompose `x ≠ 0` as `2^k * m` with `m` odd; then `x &&& (x-1)`
clears the lowest set bit and the population count lives in `m`. -/
theorem land_pred_eq {x : Nat} (hx : x ≠ 0) :
    ∃ k m, m % 2 = 1 ∧ x = 2 ^ k * m ∧
      x &&& (x - 1) = 2 ^ k * (m - 1) ∧ popCount x = popCount m := by
  obtain ⟨k, m, hm, he⟩ := exists_odd_factor x hx
  have hp := Nat.two_pow_pos k
  have hm1 : 1 ≤ m := by omega
  have hxm1 : x - 1 = (2 ^ k - 1) + 2 ^ k * (m - 1) := by
    rw [he]
    have hmm : 2 ^ k * m = 2 ^ k * (m - 1) + 2 ^ k := by
      calc 2 ^ k * m = 2 ^ k * ((m - 1) + 1) := by rw [Nat.sub_add_cancel hm1]
        _ = 2 ^ k * (m - 1) + 2 ^ k := by ring
    omega
  have hland : x &&& (x - 1) = 2 ^ k * (m - 1) := by
    have key := land_concat (n := k) (a := 0) (b := 2 ^ k - 1) m (m - 1)
      hp (by omega)
    calc x &&& (x - 1)
        = (0 + 2 ^ k * m) &&& ((2 ^ k - 1) + 2 ^ k * (m - 1)) := by
          rw [Nat.zero_add, ← he, ← hxm1]
      _ = (0 &&& (2 ^ k - 1)) + 2 ^ k * (m &&& (m - 1)) := key
      _ = 2 ^ k * (m - 1) := by
          rw [Nat.zero_and, odd_land_pred hm, Nat.zero_add]
  have hpc : popCount x = popCount m := by
    have hcc := popCount_concat (n := k) 0 m hp
    rw [Nat.zero_add] at hcc
    rw [he, hcc, popCount_zero, Nat.zero_add]
  exact ⟨k, m, hm, he, hland, hpc⟩

theorem two_le_popCount_land {x : Nat} (h : 2 ≤ popCount x) :
    0 < x ∧ 0 < x &&& (x - 1) := by
  have hx : x ≠ 0 := by intro h0; rw [h0, popCount_zero] at h; omega
  obtain ⟨k, m, hm, he, hland, hpc⟩ := land_pred_eq hx
  have hp := Nat.two_pow_pos k
  have hmm : popCount m = 1 + popCount (m / 2) := by
    rw [popCount_eq m, hm]
  have hdm : m / 2 ≠ 0 := by
    intro h0
    rw [h0, popCount_zero] at hmm
    omega
  refine ⟨Nat.pos_of_ne_zero hx, ?_⟩
  rw [hland]
  exact Nat.mul_pos hp (by omega)

theorem popCount_eq_one_land {x : Nat} (h : popCount x = 1) :
    0 < x ∧ x &&& (x - 1) = 0 := by
  have hx : x ≠ 0 := by intro h0; rw [h0, popCount_zero] at h; omega
  obtain ⟨k, m, hm, he, hland, hpc⟩ := land_pred_eq hx
  have hmm : popCount m = 1 + popCount (m / 2) := by
    rw [popCount_eq m, hm]
  have h1 : popCount (m / 2) = 0 := by omega
  have hm0 : m / 2 = 0 := popCount_eq_zero h1
  have hm1 : m = 1 := by omega
  refine ⟨Nat.pos_of_ne_zero hx, ?_⟩
  rw [hland, hm1]
  simp

theorem compl_land_self {z : Nat} (hz : z < 2 ^ 64) :
    (z ^^^ (2 ^ 64 - 1)) &&& z = 0 := by
  apply Nat.eq_of_testBit_eq
  intro i
  rw [Nat.testBit_and, Nat.testBit_xor, Nat.testBit_two_pow_sub_one,
    Nat.zero_testBit]
  by_cases h : i < 64
  · simp [h]
  · have hzi : Nat.testBit z i = false :=
      Nat.testBit_lt_two_pow
        (lt_of_lt_of_le hz (Nat.pow_le_pow_right (by norm_num) (by omega)))
    simp [h, hzi]

theorem cwp_lt {position mask : Nat} (hm : mask < 2 ^ 64) :
    compute_winning_position position mask < 2 ^ 64 := by
  have hb : board_mask < 2 ^ 64 := by decide
  have hx : board_mask ^^^ mask < 2 ^ 64 := Nat.xor_lt_two_pow hb hm
  simp only [compute_winning_position]
  exact lt_of_le_of_lt Nat.and_le_right hx

/-- C5: if the opponent's winning mask intersected with `Possible()` has
two or more bits, `PossibleNonLosingMoves()` is the empty mask; with
exactly one bit the result is contained in that forced bit; and in all
cases the result avoids every cell directly below an opponent winning
cell. -/
theorem c5_pnlm (p : Position) (hM : p.Mask < U64) :
    (2 ≤ popCount (Possible p &&& opponent_winning_position p) →
        PossibleNonLosingMoves p = 0) ∧
    (popCount (Possible p &&& opponent_winning_position p) = 1 →
        PossibleNonLosingMoves p &&&
            (Possible p &&& opponent_winning_position p) =
          PossibleNonLosingMoves p) ∧
    PossibleNonLosingMoves p &&& (opponent_winning_position p >>> 1) = 0 := by
  have hM' : p.Mask < 2 ^ 64 := by rw [← U64_eq]; exact hM
  have how64 : opponent_winning_position p < 2 ^ 64 := cwp_lt hM'
  have hsh : opponent_winning_position p >>> 1 < 2 ^ 64 := by
    rw [Nat.shiftRight_eq_div_pow]
    exact lt_of_le_of_lt (Nat.div_le_self _ _) how64
  have hcompl := compl_land_self hsh
  have hdef : PossibleNonLosingMoves p =
      (if 0 < Possible p &&& opponent_winning_position p then
        if 0 < (Possible p &&& opponent_winning_position p) &&&
            ((Possible p &&& opponent_winning_position p) - 1) then 0
        else (Possible p &&& opponent_winning_position p) &&&
          ((opponent_winning_position p >>> 1) ^^^ (U64 - 1))
      else Possible p &&&
        ((opponent_winning_position p >>> 1) ^^^ (U64 - 1))) := rfl
  rw [U64_eq] at hdef
  refine ⟨?_, ?_, ?_⟩
  · intro h2
    obtain ⟨hpos, hland⟩ := two_le_popCount_land h2
    rw [hdef, if_pos hpos, if_pos hland]
  · intro h1
    obtain ⟨hpos, hzero⟩ := popCount_eq_one_land h1
    rw [hdef, if_pos hpos, if_neg (by omega)]
    rw [Nat.and_comm
      ((Possible p &&& opponent_winning_position p) &&&
        ((opponent_winning_position p >>> 1) ^^^ (2 ^ 64 - 1)))
      (Possible p &&& opponent_winning_position p)]
    rw [← Nat.and_assoc, Nat.and_self]
  · rw [hdef]
    split_ifs with hpos hland
    · exact Nat.zero_and _
    · rw [Nat.and_assoc, hcompl, Nat.and_zero]
    · rw [Nat.and_assoc, hcompl, Nat.and_zero]

/-- Witness for C5 at a concrete position where the opponent (three
discs on the bottom row of columns 2–4) has two immediate winning
replies. -/
theorem c5_pnlm_witness :
    (Position.mk 7 (7 + 2 ^ 14 + 2 ^ 21 + 2 ^ 28) 6).Mask < U64 ∧
    ((2 ≤ popCount (Possible (Position.mk 7 (7 + 2 ^ 14 + 2 ^ 21 + 2 ^ 28) 6) &&&
          opponent_winning_position (Position.mk 7 (7 + 2 ^ 14 + 2 ^ 21 + 2 ^ 28) 6)) →
        PossibleNonLosingMoves (Position.mk 7 (7 + 2 ^ 14 + 2 ^ 21 + 2 ^ 28) 6) = 0) ∧
      (popCount (Possible (Position.mk 7 (7 + 2 ^ 14 + 2 ^ 21 + 2 ^ 28) 6) &&&
          opponent_winning_position (Position.mk 7 (7 + 2 ^ 14 + 2 ^ 21 + 2 ^ 28) 6)) = 1 →
        PossibleNonLosingMoves (Position.mk 7 (7 + 2 ^ 14 + 2 ^ 21 + 2 ^ 28) 6) &&&
            (Possible (Position.mk 7 (7 + 2 ^ 14 + 2 ^ 21 + 2 ^ 28) 6) &&&
              opponent_winning_position (Position.mk 7 (7 + 2 ^ 14 + 2 ^ 21 + 2 ^ 28) 6)) =
          PossibleNonLosingMoves (Position.mk 7 (7 + 2 ^ 14 + 2 ^ 21 + 2 ^ 28) 6)) ∧
      PossibleNonLosingMoves (Position.mk 7 (7 + 2 ^ 14 + 2 ^ 21 + 2 ^ 28) 6) &&&
          (opponent_winning_position (Position.mk 7 (7 + 2 ^ 14 + 2 ^ 21 + 2 ^ 28) 6) >>> 1) =
        0) :=
  ⟨by decide, c5_pnlm (Position.mk 7 (7 + 2 ^ 14 + 2 ^ 21 + 2 ^ 28) 6) (by decide)⟩

/-! ### Winning-position masks (C7) -/

/-- C7 counterexample: as universally stated the claim fails.  With
player mask `56` (three vertically stacked discs) and occupancy mask
`64` (a bare sentinel bit, not a valid occupancy), the reported winning
cell at bit 6 is itself set in the occupancy mask. -/
theorem c7_cex : compute_winning_position 56 64 &&& 64 ≠ 0 := by decide

/-- C7 (amended): for every player mask and every occupancy mask that
is a subset of `board_mask` — as every real occupancy is — the winning
mask is disjoint from the occupancy mask and contained in
`board_mask`. -/
theorem c7_cwp (position mask : Nat) (h : mask &&& board_mask = mask) :
    compute_winning_position position mask &&& mask = 0 ∧
    compute_winning_position position mask &&& board_mask =
      compute_winning_position position mask := by
  have hxm : (board_mask ^^^ mask) &&& mask = 0 := by
    rw [Nat.and_xor_distrib_right, Nat.and_comm board_mask mask, h,
      Nat.and_self, Nat.xor_self]
  have hxb : (board_mask ^^^ mask) &&& board_mask = board_mask ^^^ mask := by
    rw [Nat.and_xor_distrib_right, Nat.and_self, h]
  constructor
  · simp only [compute_winning_position]
    rw [Nat.and_assoc, hxm, Nat.and_zero]
  · simp only [compute_winning_position]
    rw [Nat.and_assoc, hxb]

/-- Witness for C7 at player mask 56, occupancy mask 63 (column 0 full). -/
theorem c7_cwp_witness :
    ((63 : Nat) &&& board_mask = 63) ∧
    (compute_winning_position 56 63 &&& 63 = 0 ∧
      compute_winning_position 56 63 &&& board_mask =
        compute_winning_position 56 63) :=
  ⟨by decide, c7_cwp 56 63 (by decide)⟩

/-! ### Horizontal mirroring (C6) -/

/-- The six playable bits of column `c`, shifted down to the low end. -/
def colBits (x c : Nat) : Nat :=
  (x >>> (c * (H + 1))) &&& ((1 <<< H) - 1)

/-- The horizontal mirror as the spec words it: the bits of column `c`
move to column `W - 1 - c`, the centre column stays in place. -/
def spec_mirror (x : Nat) : Nat :=
  (colBits x 0 <<< ((W - 1) * (H + 1))) |||
  (colBits x 1 <<< ((W - 2) * (H + 1))) |||
  (colBits x 2 <<< ((W - 3) * (H + 1))) |||
  (colBits x 3 <<< ((W - 4) * (H + 1))) |||
  (colBits x 4 <<< ((W - 5) * (H + 1))) |||
  (colBits x 5 <<< ((W - 6) * (H + 1))) |||
  colBits x 6

theorem ofDigits_shift7 (d : Nat) (ds : List Nat) (hd : d < 2 ^ 7) :
    ofDigits (d :: ds) >>> 7 = ofDigits ds := by
  rw [ofDigits_cons, Nat.shiftRight_eq_div_pow,
    Nat.add_mul_div_left _ _ (Nat.two_pow_pos 7), Nat.div_eq_of_lt hd,
    Nat.zero_add]

theorem land63 {d : Nat} (hd : d < 2 ^ 6) : d &&& 63 = d := by
  rw [show (63 : Nat) = 2 ^ 6 - 1 from by norm_num,
    Nat.and_pow_two_sub_one_eq_mod]
  exact Nat.mod_eq_of_lt hd

theorem lt_of_land63 {d : Nat} (h : d &&& 63 = d) : d < 2 ^ 6 := by
  rw [show (63 : Nat) = 2 ^ 6 - 1 from by norm_num,
    Nat.and_pow_two_sub_one_eq_mod] at h
  rw [← h]
  exact Nat.mod_lt _ (by norm_num)

theorem ofDigits_head63 (d : Nat) (ds : List Nat) (hd : d < 2 ^ 6) :
    ofDigits (d :: ds) &&& 63 = d := by
  have hd7 : d < 2 ^ 7 := lt_trans hd (by norm_num)
  have h63 : (63 : Nat) = 63 + 2 ^ 7 * 0 := by norm_num
  rw [ofDigits_cons, h63, land_concat (ofDigits ds) 0 hd7 (by norm_num),
    Nat.and_zero, Nat.mul_zero, Nat.add_zero]
  exact land63 hd

theorem colBits_cons_zero (d : Nat) (ds : List Nat) (hd : d < 2 ^ 6) :
    colBits (ofDigits (d :: ds)) 0 = d := by
  show (ofDigits (d :: ds) >>> 0) &&& 63 = d
  rw [Nat.shiftRight_zero]
  exact ofDigits_head63 d ds hd

theorem colBits_cons_succ (d : Nat) (ds : List Nat) (c : Nat) (hd : d < 2 ^ 7) :
    colBits (ofDigits (d :: ds)) (c + 1) = colBits (ofDigits ds) c := by
  show (ofDigits (d :: ds) >>> ((c + 1) * 7)) &&& 63 =
    (ofDigits ds >>> (c * 7)) &&& 63
  have he : (c + 1) * 7 = 7 + c * 7 := by ring
  rw [he, Nat.shiftRight_add, ofDigits_shift7 d ds hd]

/-- Bitwise AND distributes over the base-`2^7` digit lists. -/
theorem ofDigits_land : ∀ (ds es : List Nat), ds.length = es.length →
    (∀ d ∈ ds, d < 2 ^ 7) → (∀ e ∈ es, e < 2 ^ 7) →
    ofDigits ds &&& ofDigits es = ofDigits (List.zipWith (· &&& ·) ds es)
  | [], [], _, _, _ => by simp [ofDigits_nil]
  | [], _ :: _, h, _, _ => by simp at h
  | _ :: _, [], h, _, _ => by simp at h
  | d :: ds, e :: es, h, hd, he => by
      have hd0 : d < 2 ^ 7 := hd d (List.mem_cons_self d ds)
      have he0 : e < 2 ^ 7 := he e (List.mem_cons_self e es)
      rw [List.zipWith_cons_cons, ofDigits_cons, ofDigits_cons, ofDigits_cons,
        land_concat (ofDigits ds) (ofDigits es) hd0 he0,
        ofDigits_land ds es (by simpa using h)
          (fun x hx => hd x (List.mem_cons_of_mem d hx))
          (fun x hx => he x (List.mem_cons_of_mem e hx))]

/-- ORing a single-column value into a digit list updates that digit. -/
theorem ofDigits_or_single : ∀ (ds : List Nat) (c : Nat) (d : Nat),
    c < ds.length → (∀ e ∈ ds, e < 2 ^ 7) → d < 2 ^ 7 →
    ofDigits ds ||| 2 ^ (c * 7) * d = ofDigits (ds.set c (ds.getD c 0 ||| d))
  | [], c, d, hc, _, _ => by simp at hc
  | e :: t, 0, d, _, hall, hd => by
      have he : e < 2 ^ 7 := hall e (List.mem_cons_self e t)
      simp only [List.set_cons_zero, List.getD_cons_zero, ofDigits_cons]
      have h1 : (2 : Nat) ^ (0 * 7) * d = d + 2 ^ 7 * 0 := by norm_num
      rw [h1, lor_concat (ofDigits t) 0 he hd, Nat.or_zero]
  | e :: t, c + 1, d, hc, hall, hd => by
      have he : e < 2 ^ 7 := hall e (List.mem_cons_self e t)
      have hc' : c < t.length := by simp at hc; omega
      have hall' : ∀ x ∈ t, x < 2 ^ 7 := fun x hx => hall x (List.mem_cons_of_mem e hx)
      simp only [List.set_cons_succ, List.getD_cons_succ, ofDigits_cons]
      have h1 : (2 : Nat) ^ ((c + 1) * 7) * d = 0 + 2 ^ 7 * (2 ^ (c * 7) * d) := by
        rw [Nat.zero_add, show (c + 1) * 7 = 7 + c * 7 from by ring, pow_add]
        ring
      rw [h1, lor_concat (ofDigits t) (2 ^ (c * 7) * d) he (Nat.two_pow_pos 7),
        Nat.or_zero, ofDigits_or_single t c d hc' hall' hd]

theorem ofDigits_or_head (e d : Nat) (ds : List Nat) (he : e < 2 ^ 7)
    (hd : d < 2 ^ 7) :
    ofDigits (e :: ds) ||| d = ofDigits ((e ||| d) :: ds) := by
  have h2 : d + 2 ^ 7 * 0 = d := by ring
  calc ofDigits (e :: ds) ||| d
      = (e + 2 ^ 7 * ofDigits ds) ||| (d + 2 ^ 7 * 0) := by rw [ofDigits_cons, h2]
    _ = (e ||| d) + 2 ^ 7 * (ofDigits ds ||| 0) := lor_concat _ _ he hd
    _ = ofDigits ((e ||| d) :: ds) := by rw [Nat.or_zero, ofDigits_cons]

/-- Assembling the seven mirrored column values, highest target column
first (the shape of `spec_mirror`). -/
theorem assemble_desc (d0 d1 d2 d3 d4 d5 d6 : Nat)
    (h0 : d0 < 2 ^ 7) (h1 : d1 < 2 ^ 7) (h2 : d2 < 2 ^ 7) (h3 : d3 < 2 ^ 7)
    (h4 : d4 < 2 ^ 7) (h5 : d5 < 2 ^ 7) (h6 : d6 < 2 ^ 7) :
    2 ^ (6 * 7) * d0 ||| 2 ^ (5 * 7) * d1 ||| 2 ^ (4 * 7) * d2 |||
      2 ^ (3 * 7) * d3 ||| 2 ^ (2 * 7) * d4 ||| 2 ^ (1 * 7) * d5 ||| d6 =
      ofDigits [d6, d5, d4, d3, d2, d1, d0] := by
  rw [show (2 : Nat) ^ (6 * 7) * d0 =
      ofDigits [0, 0, 0, 0, 0, 0, 0] ||| 2 ^ (6 * 7) * d0 from by
    rw [show ofDigits [0, 0, 0, 0, 0, 0, 0] = 0 from rfl, Nat.zero_or]]
  rw [ofDigits_or_single [0, 0, 0, 0, 0, 0, 0] 6 d0 (by simp)
    (by intro e he; fin_cases he <;> first | exact Nat.two_pow_pos 7 | assumption) h0]
  simp only [List.set_cons_succ, List.set_cons_zero, List.getD_cons_succ,
    List.getD_cons_zero, Nat.zero_or]
  rw [ofDigits_or_single [0, 0, 0, 0, 0, 0, d0] 5 d1 (by simp)
    (by intro e he; fin_cases he <;> first | exact Nat.two_pow_pos 7 | assumption) h1]
  simp only [List.set_cons_succ, List.set_cons_zero, List.getD_cons_succ,
    List.getD_cons_zero, Nat.zero_or]
  rw [ofDigits_or_single [0, 0, 0, 0, 0, d1, d0] 4 d2 (by simp)
    (by intro e he; fin_cases he <;> first | exact Nat.two_pow_pos 7 | assumption) h2]
  simp only [List.set_cons_succ, List.set_cons_zero, List.getD_cons_succ,
    List.getD_cons_zero, Nat.zero_or]
  rw [ofDigits_or_single [0, 0, 0, 0, d2, d1, d0] 3 d3 (by simp)
    (by intro e he; fin_cases he <;> first | exact Nat.two_pow_pos 7 | assumption) h3]
  simp only [List.set_cons_succ, List.set_cons_zero, List.getD_cons_succ,
    List.getD_cons_zero, Nat.zero_or]
  rw [ofDigits_or_single [0, 0, 0, d3, d2, d1, d0] 2 d4 (by simp)
    (by intro e he; fin_cases he <;> first | exact Nat.two_pow_pos 7 | assumption) h4]
  simp only [List.set_cons_succ, List.set_cons_zero, List.getD_cons_succ,
    List.getD_cons_zero, Nat.zero_or]
  rw [ofDigits_or_single [0, 0, d4, d3, d2, d1, d0] 1 d5 (by simp)
    (by intro e he; fin_cases he <;> first | exact Nat.two_pow_pos 7 | assumption) h5]
  simp only [List.set_cons_succ, List.set_cons_zero, List.getD_cons_succ,
    List.getD_cons_zero, Nat.zero_or]
  rw [ofDigits_or_head 0 d6 [d5, d4, d3, d2, d1, d0] (Nat.two_pow_pos 7) h6,
    Nat.zero_or]

/-- Assembling the seven mirrored column values in the order the
source's mirroring loop produces them. -/
theorem assemble_mirror (d0 d1 d2 d3 d4 d5 d6 : Nat)
    (h0 : d0 < 2 ^ 7) (h1 : d1 < 2 ^ 7) (h2 : d2 < 2 ^ 7) (h3 : d3 < 2 ^ 7)
    (h4 : d4 < 2 ^ 7) (h5 : d5 < 2 ^ 7) (h6 : d6 < 2 ^ 7) :
    0 ||| 2 ^ (6 * 7) * d0 ||| d6 ||| 2 ^ (5 * 7) * d1 ||| 2 ^ (1 * 7) * d5 |||
      2 ^ (4 * 7) * d2 ||| 2 ^ (2 * 7) * d4 ||| 2 ^ (3 * 7) * d3 =
      ofDigits [d6, d5, d4, d3, d2, d1, d0] := by
  rw [Nat.zero_or]
  rw [show (2 : Nat) ^ (6 * 7) * d0 =
      ofDigits [0, 0, 0, 0, 0, 0, 0] ||| 2 ^ (6 * 7) * d0 from by
    rw [show ofDigits [0, 0, 0, 0, 0, 0, 0] = 0 from rfl, Nat.zero_or]]
  rw [ofDigits_or_single [0, 0, 0, 0, 0, 0, 0] 6 d0 (by simp)
    (by intro e he; fin_cases he <;> first | exact Nat.two_pow_pos 7 | assumption) h0]
  simp only [List.set_cons_succ, List.set_cons_zero, List.getD_cons_succ,
    List.getD_cons_zero, Nat.zero_or]
  rw [ofDigits_or_head 0 d6 [0, 0, 0, 0, 0, d0] (Nat.two_pow_pos 7) h6,
    Nat.zero_or]
  rw [ofDigits_or_single [d6, 0, 0, 0, 0, 0, d0] 5 d1 (by simp)
    (by intro e he; fin_cases he <;> first | exact Nat.two_pow_pos 7 | assumption) h1]
  simp only [List.set_cons_succ, List.set_cons_zero, List.getD_cons_succ,
    List.getD_cons_zero, Nat.zero_or]
  rw [ofDigits_or_single [d6, 0, 0, 0, 0, d1, d0] 1 d5 (by simp)
    (by intro e he; fin_cases he <;> first | exact Nat.two_pow_pos 7 | assumption) h5]
  simp only [List.set_cons_succ, List.set_cons_zero, List.getD_cons_succ,
    List.getD_cons_zero, Nat.zero_or]
  rw [ofDigits_or_single [d6, d5, 0, 0, 0, d1, d0] 4 d2 (by simp)
    (by intro e he; fin_cases he <;> first | exact Nat.two_pow_pos 7 | assumption) h2]
  simp only [List.set_cons_succ, List.set_cons_zero, List.getD_cons_succ,
    List.getD_cons_zero, Nat.zero_or]
  rw [ofDigits_or_single [d6, d5, 0, 0, d2, d1, d0] 2 d4 (by simp)
    (by intro e he; fin_cases he <;> first | exact Nat.two_pow_pos 7 | assumption) h4]
  simp only [List.set_cons_succ, List.set_cons_zero, List.getD_cons_succ,
    List.getD_cons_zero, Nat.zero_or]
  rw [ofDigits_or_single [d6, d5, d4, 0, d2, d1, d0] 3 d3 (by simp)
    (by intro e he; fin_cases he <;> first | exact Nat.two_pow_pos 7 | assumption) h3]
  simp only [List.set_cons_succ, List.set_cons_zero, List.getD_cons_succ,
    List.getD_cons_zero, Nat.zero_or]

/-- `spec_mirror` reverses the digit list of a bitboard whose columns
all fit in six bits. -/
theorem spec_mirror_digits (d0 d1 d2 d3 d4 d5 d6 : Nat)
    (h0 : d0 < 2 ^ 6) (h1 : d1 < 2 ^ 6) (h2 : d2 < 2 ^ 6) (h3 : d3 < 2 ^ 6)
    (h4 : d4 < 2 ^ 6) (h5 : d5 < 2 ^ 6) (h6 : d6 < 2 ^ 6) :
    spec_mirror (ofDigits [d0, d1, d2, d3, d4, d5, d6]) =
      ofDigits [d6, d5, d4, d3, d2, d1, d0] := by
  have k0 : d0 < 2 ^ 7 := lt_trans h0 (by norm_num)
  have k1 : d1 < 2 ^ 7 := lt_trans h1 (by norm_num)
  have k2 : d2 < 2 ^ 7 := lt_trans h2 (by norm_num)
  have k3 : d3 < 2 ^ 7 := lt_trans h3 (by norm_num)
  have k4 : d4 < 2 ^ 7 := lt_trans h4 (by norm_num)
  have k5 : d5 < 2 ^ 7 := lt_trans h5 (by norm_num)
  have k6 : d6 < 2 ^ 7 := lt_trans h6 (by norm_num)
  have e0 : colBits (ofDigits [d0, d1, d2, d3, d4, d5, d6]) 0 = d0 :=
    colBits_cons_zero _ _ h0
  have e1 : colBits (ofDigits [d0, d1, d2, d3, d4, d5, d6]) 1 = d1 :=
    calc colBits (ofDigits [d0, d1, d2, d3, d4, d5, d6]) 1
        = colBits (ofDigits [d1, d2, d3, d4, d5, d6]) 0 :=
          colBits_cons_succ d0 _ 0 k0
      _ = d1 := colBits_cons_zero _ _ h1
  have e2 : colBits (ofDigits [d0, d1, d2, d3, d4, d5, d6]) 2 = d2 :=
    calc colBits (ofDigits [d0, d1, d2, d3, d4, d5, d6]) 2
        = colBits (ofDigits [d1, d2, d3, d4, d5, d6]) 1 :=
          colBits_cons_succ d0 _ 1 k0
      _ = colBits (ofDigits [d2, d3, d4, d5, d6]) 0 :=
          colBits_cons_succ d1 _ 0 k1
      _ = d2 := colBits_cons_zero _ _ h2
  have e3 : colBits (ofDigits [d0, d1, d2, d3, d4, d5, d6]) 3 = d3 :=
    calc colBits (ofDigits [d0, d1, d2, d3, d4, d5, d6]) 3
        = colBits (ofDigits [d1, d2, d3, d4, d5, d6]) 2 :=
          colBits_cons_succ d0 _ 2 k0
      _ = colBits (ofDigits [d2, d3, d4, d5, d6]) 1 :=
          colBits_cons_succ d1 _ 1 k1
      _ = colBits (ofDigits [d3, d4, d5, d6]) 0 :=
          colBits_cons_succ d2 _ 0 k2
      _ = d3 := colBits_cons_zero _ _ h3
  have e4 : colBits (ofDigits [d0, d1, d2, d3, d4, d5, d6]) 4 = d4 :=
    calc colBits (ofDigits [d0, d1, d2, d3, d4, d5, d6]) 4
        = colBits (ofDigits [d1, d2, d3, d4, d5, d6]) 3 :=
          colBits_cons_succ d0 _ 3 k0
      _ = colBits (ofDigits [d2, d3, d4, d5, d6]) 2 :=
          colBits_cons_succ d1 _ 2 k1
      _ = colBits (ofDigits [d3, d4, d5, d6]) 1 :=
          colBits_cons_succ d2 _ 1 k2
      _ = colBits (ofDigits [d4, d5, d6]) 0 :=
          colBits_cons_succ d3 _ 0 k3
      _ = d4 := colBits_cons_zero _ _ h4
  have e5 : colBits (ofDigits [d0, d1, d2, d3, d4, d5, d6]) 5 = d5 :=
    calc colBits (ofDigits [d0, d1, d2, d3, d4, d5, d6]) 5
        = colBits (ofDigits [d1, d2, d3, d4, d5, d6]) 4 :=
          colBits_cons_succ d0 _ 4 k0
      _ = colBits (ofDigits [d2, d3, d4, d5, d6]) 3 :=
          colBits_cons_succ d1 _ 3 k1
      _ = colBits (ofDigits [d3, d4, d5, d6]) 2 :=
          colBits_cons_succ d2 _ 2 k2
      _ = colBits (ofDigits [d4, d5, d6]) 1 :=
          colBits_cons_succ d3 _ 1 k3
      _ = colBits (ofDigits [d5, d6]) 0 :=
          colBits_cons_succ d4 _ 0 k4
      _ = d5 := colBits_cons_zero _ _ h5
  have e6 : colBits (ofDigits [d0, d1, d2, d3, d4, d5, d6]) 6 = d6 :=
    calc colBits (ofDigits [d0, d1, d2, d3, d4, d5, d6]) 6
        = colBits (ofDigits [d1, d2, d3, d4, d5, d6]) 5 :=
          colBits_cons_succ d0 _ 5 k0
      _ = colBits (ofDigits [d2, d3, d4, d5, d6]) 4 :=
          colBits_cons_succ d1 _ 4 k1
      _ = colBits (ofDigits [d3, d4, d5, d6]) 3 :=
          colBits_cons_succ d2 _ 3 k2
      _ = colBits (ofDigits [d4, d5, d6]) 2 :=
          colBits_cons_succ d3 _ 2 k3
      _ = colBits (ofDigits [d5, d6]) 1 :=
          colBits_cons_succ d4 _ 1 k4
      _ = colBits (ofDigits [d6]) 0 :=
          colBits_cons_succ d5 _ 0 k5
      _ = d6 := colBits_cons_zero _ _ h6
  have hs : ∀ d k : Nat, d <<< k = 2 ^ k * d := fun d k => by
    rw [Nat.shiftLeft_eq, Nat.mul_comm]
  simp only [spec_mirror]
  rw [e0, e1, e2, e3, e4, e5, e6]
  simp only [hs]
  exact assemble_desc d0 d1 d2 d3 d4 d5 d6 k0 k1 k2 k3 k4 k5 k6

theorem mirror_one_unfold (x : Nat) : mirror_one x =
    0 ||| ((x &&& column_mask 0) <<< 42) % U64 ||| ((x &&& column_mask 6) >>> 42)
      ||| ((x &&& column_mask 1) <<< 28) % U64 ||| ((x &&& column_mask 5) >>> 28)
      ||| ((x &&& column_mask 2) <<< 14) % U64 ||| ((x &&& column_mask 4) >>> 14)
      ||| (x &&& column_mask 3) := rfl

/-- The source's mirroring accumulation also reverses the digit list. -/
theorem mirror_one_digits (d0 d1 d2 d3 d4 d5 d6 : Nat)
    (h0 : d0 < 2 ^ 6) (h1 : d1 < 2 ^ 6) (h2 : d2 < 2 ^ 6) (h3 : d3 < 2 ^ 6)
    (h4 : d4 < 2 ^ 6) (h5 : d5 < 2 ^ 6) (h6 : d6 < 2 ^ 6) :
    mirror_one (ofDigits [d0, d1, d2, d3, d4, d5, d6]) =
      ofDigits [d6, d5, d4, d3, d2, d1, d0] := by
  have k0 : d0 < 2 ^ 7 := lt_trans h0 (by norm_num)
  have k1 : d1 < 2 ^ 7 := lt_trans h1 (by norm_num)
  have k2 : d2 < 2 ^ 7 := lt_trans h2 (by norm_num)
  have k3 : d3 < 2 ^ 7 := lt_trans h3 (by norm_num)
  have k4 : d4 < 2 ^ 7 := lt_trans h4 (by norm_num)
  have k5 : d5 < 2 ^ 7 := lt_trans h5 (by norm_num)
  have k6 : d6 < 2 ^ 7 := lt_trans h6 (by norm_num)
  have hX : ∀ e ∈ [d0, d1, d2, d3, d4, d5, d6], e < 2 ^ 7 := by
    intro e he; fin_cases he <;> assumption
  have hbound : ∀ (s d : Nat), d < 2 ^ 6 → s + 6 ≤ 64 → 2 ^ s * d < 2 ^ 64 := by
    intro s d hd hs
    calc 2 ^ s * d < 2 ^ s * 2 ^ 6 := mul_lt_mul_of_pos_left hd (Nat.two_pow_pos s)
      _ = 2 ^ (s + 6) := by rw [pow_add]
      _ ≤ 2 ^ 64 := Nat.pow_le_pow_right (by norm_num) hs
  have v0 : ofDigits [d0, d1, d2, d3, d4, d5, d6] &&& column_mask 0 =
      ofDigits [d0, 0, 0, 0, 0, 0, 0] := by
    rw [show column_mask 0 = ofDigits [63, 0, 0, 0, 0, 0, 0] from by decide,
      ofDigits_land _ _ (by simp) hX (by intro e he; fin_cases he <;> norm_num)]
    simp only [List.zipWith_cons_cons, List.zipWith_nil_left, Nat.and_zero]
    rw [land63 h0]
  have v1 : ofDigits [d0, d1, d2, d3, d4, d5, d6] &&& column_mask 1 =
      ofDigits [0, d1, 0, 0, 0, 0, 0] := by
    rw [show column_mask 1 = ofDigits [0, 63, 0, 0, 0, 0, 0] from by decide,
      ofDigits_land _ _ (by simp) hX (by intro e he; fin_cases he <;> norm_num)]
    simp only [List.zipWith_cons_cons, List.zipWith_nil_left, Nat.and_zero]
    rw [land63 h1]
  have v2 : ofDigits [d0, d1, d2, d3, d4, d5, d6] &&& column_mask 2 =
      ofDigits [0, 0, d2, 0, 0, 0, 0] := by
    rw [show column_mask 2 = ofDigits [0, 0, 63, 0, 0, 0, 0] from by decide,
      ofDigits_land _ _ (by simp) hX (by intro e he; fin_cases he <;> norm_num)]
    simp only [List.zipWith_cons_cons, List.zipWith_nil_left, Nat.and_zero]
    rw [land63 h2]
  have v3 : ofDigits [d0, d1, d2, d3, d4, d5, d6] &&& column_mask 3 =
      ofDigits [0, 0, 0, d3, 0, 0, 0] := by
    rw [show column_mask 3 = ofDigits [0, 0, 0, 63, 0, 0, 0] from by decide,
      ofDigits_land _ _ (by simp) hX (by intro e he; fin_cases he <;> norm_num)]
    simp only [List.zipWith_cons_cons, List.zipWith_nil_left, Nat.and_zero]
    rw [land63 h3]
  have v4 : ofDigits [d0, d1, d2, d3, d4, d5, d6] &&& column_mask 4 =
      ofDigits [0, 0, 0, 0, d4, 0, 0] := by
    rw [show column_mask 4 = ofDigits [0, 0, 0, 0, 63, 0, 0] from by decide,
      ofDigits_land _ _ (by simp) hX (by intro e he; fin_cases he <;> norm_num)]
    simp only [List.zipWith_cons_cons, List.zipWith_nil_left, Nat.and_zero]
    rw [land63 h4]
  have v5 : ofDigits [d0, d1, d2, d3, d4, d5, d6] &&& column_mask 5 =
      ofDigits [0, 0, 0, 0, 0, d5, 0] := by
    rw [show column_mask 5 = ofDigits [0, 0, 0, 0, 0, 63, 0] from by decide,
      ofDigits_land _ _ (by simp) hX (by intro e he; fin_cases he <;> norm_num)]
    simp only [List.zipWith_cons_cons, List.zipWith_nil_left, Nat.and_zero]
    rw [land63 h5]
  have v6 : ofDigits [d0, d1, d2, d3, d4, d5, d6] &&& column_mask 6 =
      ofDigits [0, 0, 0, 0, 0, 0, d6] := by
    rw [show column_mask 6 = ofDigits [0, 0, 0, 0, 0, 0, 63] from by decide,
      ofDigits_land _ _ (by simp) hX (by intro e he; fin_cases he <;> norm_num)]
    simp only [List.zipWith_cons_cons, List.zipWith_nil_left, Nat.and_zero]
    rw [land63 h6]
  have a0 : ((ofDigits [d0, 0, 0, 0, 0, 0, 0] : Nat) <<< 42) % U64 =
      2 ^ 42 * d0 := by
    rw [show ofDigits [d0, 0, 0, 0, 0, 0, 0] = d0 from by simp [ofDigits],
      Nat.shiftLeft_eq, Nat.mul_comm, U64_eq]
    exact Nat.mod_eq_of_lt (hbound 42 d0 h0 (by norm_num))
  have b0 : (ofDigits [0, 0, 0, 0, 0, 0, d6] : Nat) >>> 42 = d6 := by
    rw [show ofDigits [0, 0, 0, 0, 0, 0, d6] = d6 * 2 ^ 42 from by
        simp [ofDigits]; try ring,
      Nat.shiftRight_eq_div_pow, Nat.mul_div_cancel _ (Nat.two_pow_pos 42)]
  have a1 : ((ofDigits [0, d1, 0, 0, 0, 0, 0] : Nat) <<< 28) % U64 =
      2 ^ 35 * d1 := by
    rw [show ofDigits [0, d1, 0, 0, 0, 0, 0] = 2 ^ 7 * d1 from by
        simp [ofDigits]; try ring,
      Nat.shiftLeft_eq, U64_eq,
      show (2 : Nat) ^ 7 * d1 * 2 ^ 28 = 2 ^ 35 * d1 from by ring]
    exact Nat.mod_eq_of_lt (hbound 35 d1 h1 (by norm_num))
  have b1 : (ofDigits [0, 0, 0, 0, 0, d5, 0] : Nat) >>> 28 = 2 ^ 7 * d5 := by
    rw [show ofDigits [0, 0, 0, 0, 0, d5, 0] = 2 ^ 7 * d5 * 2 ^ 28 from by
        simp [ofDigits]; try ring,
      Nat.shiftRight_eq_div_pow, Nat.mul_div_cancel _ (Nat.two_pow_pos 28)]
  have a2 : ((ofDigits [0, 0, d2, 0, 0, 0, 0] : Nat) <<< 14) % U64 =
      2 ^ 28 * d2 := by
    rw [show ofDigits [0, 0, d2, 0, 0, 0, 0] = 2 ^ 14 * d2 from by
        simp [ofDigits]; try ring,
      Nat.shiftLeft_eq, U64_eq,
      show (2 : Nat) ^ 14 * d2 * 2 ^ 14 = 2 ^ 28 * d2 from by ring]
    exact Nat.mod_eq_of_lt (hbound 28 d2 h2 (by norm_num))
  have b2 : (ofDigits [0, 0, 0, 0, d4, 0, 0] : Nat) >>> 14 = 2 ^ 14 * d4 := by
    rw [show ofDigits [0, 0, 0, 0, d4, 0, 0] = 2 ^ 14 * d4 * 2 ^ 14 from by
        simp [ofDigits]; try ring,
      Nat.shiftRight_eq_div_pow, Nat.mul_div_cancel _ (Nat.two_pow_pos 14)]
  have c3v : (ofDigits [0, 0, 0, d3, 0, 0, 0] : Nat) = 2 ^ 21 * d3 := by
    simp [ofDigits]; try ring
  rw [mirror_one_unfold, v0, v1, v2, v3, v4, v5, v6, a0, b0, a1, b1, a2, b2, c3v]
  exact assemble_mirror d0 d1 d2 d3 d4 d5 d6 k0 k1 k2 k3 k4 k5 k6

theorem land_div_mod (x y k n : Nat) :
    (x &&& y) / 2 ^ k % 2 ^ n = (x / 2 ^ k % 2 ^ n) &&& (y / 2 ^ k % 2 ^ n) := by
  apply Nat.eq_of_testBit_eq
  intro i
  rw [← Nat.shiftRight_eq_div_pow, ← Nat.shiftRight_eq_div_pow,
    ← Nat.shiftRight_eq_div_pow]
  simp only [Nat.testBit_mod_two_pow, Nat.testBit_and, Nat.testBit_shiftRight]
  cases decide (i < n) <;> cases Nat.testBit x (k + i) <;>
    cases Nat.testBit y (k + i) <;> simp

theorem digit_lt_of_subset {x : Nat} (hx : x &&& board_mask = x) (k : Nat)
    (hk : board_mask / 2 ^ k % 2 ^ 7 = 63) : x / 2 ^ k % 2 ^ 7 < 2 ^ 6 := by
  apply lt_of_land63
  calc (x / 2 ^ k % 2 ^ 7) &&& 63
      = (x / 2 ^ k % 2 ^ 7) &&& (board_mask / 2 ^ k % 2 ^ 7) := by rw [hk]
    _ = (x &&& board_mask) / 2 ^ k % 2 ^ 7 := (land_div_mod x board_mask k 7).symm
    _ = x / 2 ^ k % 2 ^ 7 := by rw [hx]

/-- A bitboard inside `board_mask` is the value of its seven 6-bit
column digits. -/
theorem subset_digits {x : Nat} (hx : x &&& board_mask = x) :
    ∃ d0 d1 d2 d3 d4 d5 d6 : Nat,
      d0 < 2 ^ 6 ∧ d1 < 2 ^ 6 ∧ d2 < 2 ^ 6 ∧ d3 < 2 ^ 6 ∧ d4 < 2 ^ 6 ∧
      d5 < 2 ^ 6 ∧ d6 < 2 ^ 6 ∧
      x = ofDigits [d0, d1, d2, d3, d4, d5, d6] := by
  have hxlt : x < 2 ^ 49 := by
    have h1 : x ≤ board_mask := by rw [← hx]; exact Nat.and_le_right
    have h2 : board_mask < 2 ^ 49 := by decide
    omega
  refine ⟨x % 2 ^ 7, x / 2 ^ 7 % 2 ^ 7, x / 2 ^ 14 % 2 ^ 7, x / 2 ^ 21 % 2 ^ 7,
    x / 2 ^ 28 % 2 ^ 7, x / 2 ^ 35 % 2 ^ 7, x / 2 ^ 42 % 2 ^ 7,
    ?_, ?_, ?_, ?_, ?_, ?_, ?_, ?_⟩
  · have h := digit_lt_of_subset hx 0 (by decide)
    simpa using h
  · exact digit_lt_of_subset hx 7 (by decide)
  · exact digit_lt_of_subset hx 14 (by decide)
  · exact digit_lt_of_subset hx 21 (by decide)
  · exact digit_lt_of_subset hx 28 (by decide)
  · exact digit_lt_of_subset hx 35 (by decide)
  · exact digit_lt_of_subset hx 42 (by decide)
  · simp only [ofDigits]
    norm_num at hxlt ⊢
    omega

/-- For bitboards inside `board_mask`: the source's mirroring equals the
spec's column swap, the mirror stays inside `board_mask`, and mirroring
twice is the identity. -/
theorem mirror_props {x : Nat} (hx : x &&& board_mask = x) :
    mirror_one x = spec_mirror x ∧
    spec_mirror x &&& board_mask = spec_mirror x ∧
    spec_mirror (spec_mirror x) = x := by
  obtain ⟨d0, d1, d2, d3, d4, d5, d6, h0, h1, h2, h3, h4, h5, h6, rfl⟩ :=
    subset_digits hx
  refine ⟨?_, ?_, ?_⟩
  · rw [mirror_one_digits _ _ _ _ _ _ _ h0 h1 h2 h3 h4 h5 h6,
      spec_mirror_digits _ _ _ _ _ _ _ h0 h1 h2 h3 h4 h5 h6]
  · rw [spec_mirror_digits _ _ _ _ _ _ _ h0 h1 h2 h3 h4 h5 h6,
      show board_mask = ofDigits [63, 63, 63, 63, 63, 63, 63] from by decide,
      ofDigits_land _ _ (by simp)
        (by intro e he; fin_cases he <;>
          first
            | exact lt_trans h6 (by norm_num)
            | exact lt_trans h5 (by norm_num)
            | exact lt_trans h4 (by norm_num)
            | exact lt_trans h3 (by norm_num)
            | exact lt_trans h2 (by norm_num)
            | exact lt_trans h1 (by norm_num)
            | exact lt_trans h0 (by norm_num))
        (by intro e he; fin_cases he <;> norm_num)]
    simp only [List.zipWith_cons_cons, List.zipWith_nil_left]
    rw [land63 h6, land63 h5, land63 h4, land63 h3, land63 h2, land63 h1,
      land63 h0]
  · rw [spec_mirror_digits _ _ _ _ _ _ _ h0 h1 h2 h3 h4 h5 h6,
      spec_mirror_digits d6 d5 d4 d3 d2 d1 d0 h6 h5 h4 h3 h2 h1 h0]

/-- C6: `GetKey` is the minimum of `Board + Mask` over the stored
position and its horizontal mirror (the source's mirroring agreeing
with the spec's column swap), and the key is invariant under
column-reversal. -/
theorem c6_getkey (p : Position) (hB : p.Board &&& board_mask = p.Board)
    (hM : p.Mask &&& board_mask = p.Mask) :
    get_mirrored_bitmasks p = (spec_mirror p.Board, spec_mirror p.Mask) ∧
    GetKey p = min ((p.Board + p.Mask) % U64)
      ((spec_mirror p.Board + spec_mirror p.Mask) % U64) ∧
    GetKey ⟨spec_mirror p.Board, spec_mirror p.Mask, p.moves⟩ = GetKey p := by
  obtain ⟨hmB, hsB, hinvB⟩ := mirror_props hB
  obtain ⟨hmM, hsM, hinvM⟩ := mirror_props hM
  obtain ⟨hmB2, -, -⟩ := mirror_props hsB
  obtain ⟨hmM2, -, -⟩ := mirror_props hsM
  refine ⟨?_, ?_, ?_⟩
  · show (mirror_one p.Board, mirror_one p.Mask) = _
    rw [hmB, hmM]
  · simp only [GetKey, get_mirrored_bitmasks]
    rw [hmB, hmM]
    split_ifs with h <;> omega
  · simp only [GetKey, get_mirrored_bitmasks]
    rw [hmB2, hmM2, hinvB, hinvM, hmB, hmM]
    split_ifs with h1 h2 <;> omega

/-- Witness for C6 at the position with one current-player disc at the
bottom of column 0 and an opponent disc at the bottom of column 1. -/
theorem c6_getkey_witness :
    ((Position.mk 1 (2 ^ 7 + 1) 2).Board &&& board_mask =
        (Position.mk 1 (2 ^ 7 + 1) 2).Board) ∧
    ((Position.mk 1 (2 ^ 7 + 1) 2).Mask &&& board_mask =
        (Position.mk 1 (2 ^ 7 + 1) 2).Mask) ∧
    (get_mirrored_bitmasks (Position.mk 1 (2 ^ 7 + 1) 2) =
        (spec_mirror (Position.mk 1 (2 ^ 7 + 1) 2).Board,
          spec_mirror (Position.mk 1 (2 ^ 7 + 1) 2).Mask) ∧
      GetKey (Position.mk 1 (2 ^ 7 + 1) 2) =
        min (((Position.mk 1 (2 ^ 7 + 1) 2).Board +
            (Position.mk 1 (2 ^ 7 + 1) 2).Mask) % U64)
          ((spec_mirror (Position.mk 1 (2 ^ 7 + 1) 2).Board +
            spec_mirror (Position.mk 1 (2 ^ 7 + 1) 2).Mask) % U64) ∧
      GetKey ⟨spec_mirror (Position.mk 1 (2 ^ 7 + 1) 2).Board,
          spec_mirror (Position.mk 1 (2 ^ 7 + 1) 2).Mask,
          (Position.mk 1 (2 ^ 7 + 1) 2).moves⟩ =
        GetKey (Position.mk 1 (2 ^ 7 + 1) 2)) :=
  ⟨by decide, by decide, c6_getkey (Position.mk 1 (2 ^ 7 + 1) 2) (by decide) (by decide)⟩

/-! ### Board-string parsing invariants (C10) -/

/-- The bit index the board-string parser computes for input position
`i`: row `H - i/W - 1`, column `i % W`. -/
def bIdx (i : Nat) : Nat := H - i / W - 1 + i % W * (H + 1)

theorem bIdx_board : ∀ i, i < 42 → Nat.testBit board_mask (bIdx i) = true := by
  decide

theorem bIdx_inj : ∀ i, i < 42 → ∀ j, j < 42 → bIdx i = bIdx j → i = j := by
  decide

theorem bIdx_lt : ∀ i, i < 42 → bIdx i < 48 := by decide

theorem one_shift_mod {e : Nat} (he : e < 48) : (1 <<< e) % U64 = 2 ^ e := by
  rw [Nat.shiftLeft_eq, Nat.one_mul, U64_eq]
  exact Nat.mod_eq_of_lt (lt_of_lt_of_le
    (Nat.pow_lt_pow_right (by norm_num) he)
    (Nat.pow_le_pow_right (by norm_num) (by norm_num)))

/-- Setting a clear bit is addition, and increments the population
count. -/
theorem lor_two_pow_of_testBit_false {m e : Nat} (h : Nat.testBit m e = false) :
    m ||| 2 ^ e = m + 2 ^ e ∧ popCount (m + 2 ^ e) = popCount m + 1 := by
  have h0 : m / 2 ^ e % 2 = 0 := by
    rw [Nat.testBit_to_div_mod] at h
    have h1 : m / 2 ^ e % 2 ≠ 1 := by simpa using h
    omega
  have hm : m = m % 2 ^ e + 2 ^ e * (2 * (m / 2 ^ e / 2)) := by
    have hdm := Nat.div_add_mod m (2 ^ e)
    have hdd := Nat.div_add_mod (m / 2 ^ e) 2
    rw [h0, Nat.add_zero] at hdd
    rw [← hdd] at hdm
    calc m = 2 ^ e * (2 * (m / 2 ^ e / 2)) + m % 2 ^ e := hdm.symm
      _ = m % 2 ^ e + 2 ^ e * (2 * (m / 2 ^ e / 2)) := Nat.add_comm _ _
  have hlo : m % 2 ^ e < 2 ^ e := Nat.mod_lt m (Nat.two_pow_pos e)
  have htwo : (2 * (m / 2 ^ e / 2)) ||| 1 = 2 * (m / 2 ^ e / 2) + 1 := by
    have hh := Nat.mul_add_lt_is_or (show (1 : Nat) < 2 ^ 1 by norm_num)
      (m / 2 ^ e / 2)
    simpa using hh.symm
  have hsum : m + 2 ^ e = m % 2 ^ e + 2 ^ e * (2 * (m / 2 ^ e / 2) + 1) := by
    calc m + 2 ^ e
        = (m % 2 ^ e + 2 ^ e * (2 * (m / 2 ^ e / 2))) + 2 ^ e := by rw [← hm]
      _ = m % 2 ^ e + 2 ^ e * (2 * (m / 2 ^ e / 2) + 1) := by ring
  constructor
  · have key := lor_concat (n := e) (a := m % 2 ^ e) (b := 0)
      (2 * (m / 2 ^ e / 2)) 1 hlo (Nat.two_pow_pos e)
    calc m ||| 2 ^ e
        = (m % 2 ^ e + 2 ^ e * (2 * (m / 2 ^ e / 2))) ||| (0 + 2 ^ e * 1) := by
          rw [← hm, Nat.zero_add, Nat.mul_one]
      _ = (m % 2 ^ e ||| 0) + 2 ^ e * ((2 * (m / 2 ^ e / 2)) ||| 1) := key
      _ = m % 2 ^ e + 2 ^ e * (2 * (m / 2 ^ e / 2) + 1) := by
          rw [Nat.or_zero, htwo]
      _ = m + 2 ^ e := hsum.symm
  · have hc1 : popCount (m % 2 ^ e + 2 ^ e * (2 * (m / 2 ^ e / 2))) =
        popCount (m % 2 ^ e) + popCount (2 * (m / 2 ^ e / 2)) :=
      popCount_concat _ _ hlo
    have hc2 : popCount (m % 2 ^ e + 2 ^ e * (2 * (m / 2 ^ e / 2) + 1)) =
        popCount (m % 2 ^ e) + popCount (2 * (m / 2 ^ e / 2) + 1) :=
      popCount_concat _ _ hlo
    have he2 : popCount (2 * (m / 2 ^ e / 2)) = popCount (m / 2 ^ e / 2) := by
      rw [popCount_eq (2 * (m / 2 ^ e / 2))]
      have e1 : 2 * (m / 2 ^ e / 2) % 2 = 0 := by omega
      have e2 : 2 * (m / 2 ^ e / 2) / 2 = m / 2 ^ e / 2 := by omega
      rw [e1, e2, Nat.zero_add]
    have ho : popCount (2 * (m / 2 ^ e / 2) + 1) = popCount (m / 2 ^ e / 2) + 1 := by
      rw [popCount_eq (2 * (m / 2 ^ e / 2) + 1)]
      have e1 : (2 * (m / 2 ^ e / 2) + 1) % 2 = 1 := by omega
      have e2 : (2 * (m / 2 ^ e / 2) + 1) / 2 = m / 2 ^ e / 2 := by omega
      rw [e1, e2]
      omega
    have hpm : popCount m = popCount (m % 2 ^ e) + popCount (m / 2 ^ e / 2) := by
      conv_lhs => rw [hm]
      rw [hc1, he2]
    rw [hsum, hc2, ho, hpm]
    omega

theorem lor_subset_lor {a b x : Nat} (h : a &&& b = a) :
    (a ||| x) &&& (b ||| x) = a ||| x := by
  apply Nat.eq_of_testBit_eq
  intro i
  have e := congrArg (fun t => Nat.testBit t i) h
  simp only [Nat.testBit_and] at e
  simp only [Nat.testBit_and, Nat.testBit_or]
  cases ha : Nat.testBit a i <;> cases hb : Nat.testBit b i <;>
    cases hx : Nat.testBit x i <;> simp_all

theorem lor_subset {a b c : Nat} (h1 : a &&& c = a) (h2 : b &&& c = b) :
    (a ||| b) &&& c = a ||| b := by
  apply Nat.eq_of_testBit_eq
  intro i
  have e1 := congrArg (fun t => Nat.testBit t i) h1
  have e2 := congrArg (fun t => Nat.testBit t i) h2
  simp only [Nat.testBit_and] at e1 e2
  simp only [Nat.testBit_and, Nat.testBit_or]
  cases ha : Nat.testBit a i <;> cases hb : Nat.testBit b i <;>
    cases hc : Nat.testBit c i <;> simp_all

theorem two_pow_subset {y : Nat} (e : Nat) (h : Nat.testBit y e = true) :
    2 ^ e &&& y = 2 ^ e := by
  apply Nat.eq_of_testBit_eq
  intro i
  rw [Nat.testBit_and, Nat.testBit_two_pow]
  by_cases hie : e = i
  · subst hie; simp [h]
  · simp [hie]

/-- The representation invariants of a parser state. -/
def PosInv (s : Nat × Nat × Nat) : Prop :=
  s.1 &&& s.2.1 = s.1 ∧ s.2.1 &&& board_mask = s.2.1 ∧ s.2.2 = popCount s.2.1

theorem boardStringStep_eq (s : Nat × Nat × Nat) (k : Nat) (c : Char) :
    boardStringStep s (k, c) =
      if c = '.' then s else
        (s.1 ||| (((if c = 'x' then (1 : Nat) else 0) <<< bIdx k) % U64),
         s.2.1 ||| ((1 <<< bIdx k) % U64),
         s.2.2 + 1) := rfl

/-- The board-string fold preserves the representation invariants. -/
theorem boardFold_inv : ∀ (l : List Char) (k : Nat) (s : Nat × Nat × Nat),
    k + l.length ≤ 42 → PosInv s →
    (∀ j, k ≤ j → j < 42 → Nat.testBit s.2.1 (bIdx j) = false) →
    PosInv ((List.enumFrom k l).foldl boardStringStep s)
  | [], _, s, _, hinv, _ => by simpa using hinv
  | c :: t, k, s, hlen, hinv, hbits => by
      have hk42 : k < 42 := by simp [List.length_cons] at hlen; omega
      have hlen' : (k + 1) + t.length ≤ 42 := by
        simp [List.length_cons] at hlen; omega
      rw [List.enumFrom_cons, List.foldl_cons, boardStringStep_eq]
      by_cases hc : c = '.'
      · rw [if_pos hc]
        exact boardFold_inv t (k + 1) s hlen' hinv
          (fun j hj1 hj2 => hbits j (by omega) hj2)
      · rw [if_neg hc]
        have hmod : (1 <<< bIdx k) % U64 = 2 ^ bIdx k :=
          one_shift_mod (bIdx_lt k hk42)
        have hfree : Nat.testBit s.2.1 (bIdx k) = false :=
          hbits k (le_refl k) hk42
        obtain ⟨hor, hpc⟩ := lor_two_pow_of_testBit_false hfree
        have hsub2 : (s.2.1 ||| ((1 <<< bIdx k) % U64)) &&& board_mask =
            s.2.1 ||| ((1 <<< bIdx k) % U64) := by
          rw [hmod]
          exact lor_subset hinv.2.1 (two_pow_subset (bIdx k) (bIdx_board k hk42))
        have hpc2 : s.2.2 + 1 = popCount (s.2.1 ||| ((1 <<< bIdx k) % U64)) := by
          rw [hmod, hor, hpc, hinv.2.2]
        have hboard : (s.1 ||| (((if c = 'x' then (1 : Nat) else 0) <<< bIdx k) % U64)) &&&
            (s.2.1 ||| ((1 <<< bIdx k) % U64)) =
            s.1 ||| (((if c = 'x' then (1 : Nat) else 0) <<< bIdx k) % U64) := by
          by_cases hx : c = 'x'
          · rw [if_pos hx, hmod]
            exact lor_subset_lor hinv.1
          · rw [if_neg hx]
            rw [show ((0 : Nat) <<< bIdx k) % U64 = 0 from by
              rw [Nat.zero_shiftLeft]; rfl]
            rw [Nat.or_zero]
            exact land_trans hinv.1 (land_absorb_or _ _)
        have hbits' : ∀ j, k + 1 ≤ j → j < 42 →
            Nat.testBit (s.2.1 ||| ((1 <<< bIdx k) % U64)) (bIdx j) = false := by
          intro j hj1 hj2
          rw [hmod, Nat.testBit_or, hbits j (by omega) hj2, Nat.testBit_two_pow]
          simp only [Bool.false_or, decide_eq_false_iff_not]
          intro heq
          have := bIdx_inj k hk42 j hj2 heq
          omega
        exact boardFold_inv t (k + 1) _ hlen' ⟨hboard, hsub2, hpc2⟩ hbits'

/-- C10: every accepted board string yields a position satisfying the
representation invariants: current-player mask inside the occupancy
mask, both masks inside `board_mask`, and the move count equals the
population count of the occupancy mask. -/
theorem c10_board_invariants (s : List Char) (p : Position)
    (h : PositionFromBoardString s = Except.ok p) :
    p.Board &&& p.Mask = p.Board ∧ p.Mask &&& board_mask = p.Mask ∧
    p.moves = popCount p.Mask := by
  simp only [PositionFromBoardString] at h
  by_cases hlen : ((s.map Char.toLower).filter
      fun c => c = '.' || c = 'o' || c = 'x').length ≠ BoardSize
  · rw [if_pos hlen] at h
    simp at h
  · rw [if_neg hlen] at h
    have hl42 : ((s.map Char.toLower).filter
        fun c => c = '.' || c = 'o' || c = 'x').length = 42 :=
      not_ne_iff.mp hlen
    have hinv := boardFold_inv
      ((s.map Char.toLower).filter fun c => c = '.' || c = 'o' || c = 'x')
      0 (0, 0, 0) (by omega) ⟨by decide, by decide, popCount_zero.symm⟩
      (fun j _ _ => Nat.zero_testBit _)
    injection h with h2
    rw [← h2]
    exact hinv

/-- Witness for C10: a board string with a single floating `x` disc in
the top-left corner, a position no legal game can reach. -/
theorem c10_board_invariants_witness :
    PositionFromBoardString ('x' :: List.replicate 41 '.') =
      Except.ok (Position.mk 32 32 1) ∧
    ((Position.mk 32 32 1).Board &&& (Position.mk 32 32 1).Mask =
        (Position.mk 32 32 1).Board ∧
      (Position.mk 32 32 1).Mask &&& board_mask = (Position.mk 32 32 1).Mask ∧
      (Position.mk 32 32 1).moves = popCount (Position.mk 32 32 1).Mask) :=
  ⟨rfl, c10_board_invariants ('x' :: List.replicate 41 '.') (Position.mk 32 32 1) rfl⟩

/-- C1: the claim says `IsPlayable(c)` is true iff the column's top
usable bit is unset.  The source tests `Mask & top_mask_col(col) != 0`,
the inverted condition: on the empty position column 0 has its top bit
unset, yet `IsPlayable` returns `false`, contradicting both the claim
and the function's own documentation. -/
theorem c1_isplayable_eval :
    IsPlayable NewPosition 0 = false ∧
    NewPosition.Mask &&& top_mask_col 0 = 0 := by
  decide

/-- C2: the claim says parsing `"343"` from the empty board succeeds
with move count 3.  Because `IsPlayable` is inverted, the source
rejects the very first character with `InvalidFullColumnMove{4, 0}`. -/
theorem c2_parse343_eval :
    PositionFromMoves ['3', '4', '3'] =
      Except.error (ParseError.invalidFullColumnMove 4 0) := rfl

/-- C3: the claim says `Possible()` equals
`(occupancy_mask + bottom_mask) & board_mask` and is a subset of
`board_mask`.  Go operator precedence makes the source compute
`occupancy_mask + (bottom_mask & board_mask)`, dropping the final
masking: with column 0 full the sentinel carry at bit 6 survives, so
both halves of the claim fail on the position with `Mask = 63`. -/
theorem c3_possible_eval :
    Possible (Position.mk 0 63 6) ≠
        ((Position.mk 0 63 6).Mask + bottom_mask) &&& board_mask ∧
    Possible (Position.mk 0 63 6) &&& board_mask ≠ Possible (Position.mk 0 63 6) := by
  decide

/-- C8 counterexample: a move naming the out-of-range column 7 is
rejected as `InvalidFullColumnMove{8, 0}`, not as `InvalidColumn` as
the claim states. -/
theorem c8_invalidcolumn_cex :
    PositionFromMoves ['7'] =
      Except.error (ParseError.invalidFullColumnMove 8 0) ∧
    ParseError.invalidFullColumnMove 8 0 ≠ ParseError.invalidColumn 7 0 :=
  ⟨rfl, by decide⟩

/-- C8 (amended): an empty move sequence fails with
`InvalidColumn{-1}`; an out-of-range digit 7, 8 or 9 fails with
`InvalidFullColumnMove{col+1, 0}` because its top-mask bit is never
set, regardless of what follows it. -/
theorem c8_invalidcolumn_amended :
    PositionFromMoves ([] : List Char) =
      Except.error (ParseError.invalidColumn (-1) 0) ∧
    ∀ s : List Char,
      PositionFromMoves ('7' :: s) =
          Except.error (ParseError.invalidFullColumnMove 8 0) ∧
      PositionFromMoves ('8' :: s) =
          Except.error (ParseError.invalidFullColumnMove 9 0) ∧
      PositionFromMoves ('9' :: s) =
          Except.error (ParseError.invalidFullColumnMove 10 0) :=
  ⟨rfl, fun _ => ⟨rfl, rfl, rfl⟩⟩

/-- C9: the claim says every abort reports the offending character's
index; the `InvalidWinningMove` construction omits the index entirely
(always 0), and because `IsPlayable` is inverted the parser aborts on
the first character: the sequence `"1122330"`, whose seventh character
would be an immediately winning move, is instead rejected at index 0
with a full-column error. -/
theorem c9_index_eval :
    PositionFromMoves ['1', '1', '2', '2', '3', '3', '0'] =
      Except.error (ParseError.invalidFullColumnMove 2 0) := rfl

end C4S
